import Mathlib

set_option maxRecDepth 2000

/-!
Verification of the spritesheet packer (`src/main.rs`) against its
natural-language specification.

The Rust program is shallowly embedded below:

* `f32` arithmetic (the `as f32` casts, `f32::div`, `f32::sqrt`,
  `f32::ceil`/`floor`, and the saturating `as u32` cast) is modelled
  exactly over `ℚ`: a binary32 value is a rational of the form
  `m * 2 ^ e` with `m < 2 ^ 24`, and every operation rounds its exact
  rational (or real, for `sqrt`) result to the nearest such value,
  ties to even mantissa, as IEEE 754 and Rust prescribe.
* `u32` arithmetic is `ℕ` with `% 2 ^ 32` where overflow can occur.
* Panics (`unwrap`, out-of-bounds indexing) are `Option.none`;
  `Result` is `Except`.
* Pixel buffers are total functions `ℕ → ℕ → Pix`; `DynamicImage` is
  the `Img` structure carrying width, height and such a buffer.
-/

namespace Packer

/-! ## Exact model of binary32 (`f32`) arithmetic

Every `f32` value this program manipulates is a nonnegative dyadic
rational; we represent it exactly as `mant * 2 ^ exp` (an `F32`
record).  Each operation below computes the IEEE 754 / Rust result:
the exact mathematical result rounded to the nearest representable
binary32 value (24-bit mantissa), ties to the even mantissa
(`roundTiesToEven`, the rounding of Rust's `as f32` casts, of `/`,
and of `f32::sqrt`, all correctly rounded).  The exponent is
unbounded: the program's values are far from binary32 overflow
(`≈ 2¹²⁸`) and subnormal (`≈ 2⁻¹²⁶`) territory, where this model and
binary32 agree.  All definitions use structural recursion on `ℕ`
so that concrete instances evaluate inside the kernel. -/

/-- `log2Go fuel n`: fuel-driven `⌊log₂ n⌋` (`0` when `n = 0`). -/
def log2Go : ℕ → ℕ → ℕ
  | 0, _ => 0
  | fuel + 1, n => if n ≤ 1 then 0 else log2Go fuel (n / 2) + 1

/-- `⌊log₂ n⌋` for `n ≥ 1` (junk value `0` at `n = 0`). -/
def natLog2 (n : ℕ) : ℕ := log2Go n n

/-- Newton iteration for the integer square root (same algorithm as
`Nat.sqrt`, with explicit fuel): the guess strictly decreases until it
reaches `⌊√n⌋`. -/
def sqrtGo : ℕ → ℕ → ℕ → ℕ
  | 0, _, guess => guess
  | fuel + 1, n, guess =>
    let next := (guess + n / guess) / 2
    if next < guess then sqrtGo fuel n next else guess

/-- `⌊√n⌋`, kernel-reducible. -/
def natSqrt (n : ℕ) : ℕ := if n ≤ 1 then n else sqrtGo n n (n / 2)

/-- Round the fraction `a / b` (`b ≥ 1`) to the nearest integer, ties
to the even integer: IEEE `roundTiesToEven` on an integer grid,
decided exactly by comparing twice the remainder with the divisor. -/
def rneDiv (a b : ℕ) : ℕ :=
  let d := a / b
  let r := a % b
  if 2 * r < b then d
  else if b < 2 * r then d + 1
  else if d % 2 = 0 then d else d + 1

/-- A binary32 value `mant * 2 ^ exp`, exactly.  Rounded results
always satisfy `mant ≤ 2 ^ 24`; the representation is not otherwise
normalised (only the value it denotes is ever used). -/
structure F32 where
  mant : ℕ
  exp : ℤ

/-- Rust's `n as f32` for an unsigned integer: exact when `n < 2²⁴`,
otherwise the nearest multiple of `2 ^ (⌊log₂ n⌋ - 23)`, ties to even
mantissa. -/
def natToF32 (n : ℕ) : F32 :=
  let E := natLog2 n
  if E ≤ 23 then ⟨n, 0⟩
  else ⟨rneDiv n (2 ^ (E - 23)), (E : ℤ) - 23⟩

/-- binary32 division of nonnegative values, correctly rounded.
With `Q = (a.mant / b.mant) * 2 ^ (a.exp - b.exp)` the exact quotient:
`L = ⌊log₂ (a.mant / b.mant)⌋` (computed from an integer division
scaled by `2 ^ s`, `s = ⌊log₂ b.mant⌋ + 1`, so the scaled quotient is
`≥ 1`), the result's exponent field is `E - 23` with
`E = L + a.exp - b.exp`, and its mantissa is the correctly rounded
`Q * 2 ^ (23 - E) = a.mant * 2 ^ (23 - L) / b.mant`, obtained from
`rneDiv` on the side of the fraction that keeps everything integral.
Division by zero is dispatched by the caller (`f32CeilDivU32`). -/
def f32UDiv (a b : F32) : F32 :=
  if a.mant = 0 ∨ b.mant = 0 then ⟨0, 0⟩
  else
    let s := natLog2 b.mant + 1
    let L : ℤ := (natLog2 (a.mant * 2 ^ s / b.mant) : ℤ) - s
    let m := if 23 - L < 0 then rneDiv a.mant (b.mant * 2 ^ (L - 23).toNat)
             else rneDiv (a.mant * 2 ^ (23 - L).toNat) b.mant
    ⟨m, L + a.exp - b.exp - 23⟩

/-- binary32 square root, correctly rounded (IEEE requires `sqrt` to
round the exact real root).  Writing the value as `a' * 4 ^ h`
(doubling the mantissa if the exponent is odd), the root is
`√a' * 2 ^ h ∈ [2 ^ E4, 2 ^ (E4 + 1)) * 2 ^ h` with
`E4 = ⌊log₂ a'⌋ / 2`, so the result's mantissa is the nearest integer
to `√X`, `X = a' * 4 ^ (23 - E4)`: either `k = ⌊√X⌋` or `k + 1`,
decided by comparing `4 * X` with the odd square `(2k + 1)²`; a tie
`√X = k + 1/2` (impossible here: `4 * X` is a square times a power of
4, never an odd square, but decided exactly anyway) goes to the even
candidate.  `23 - E4 ≥ 0` holds for every rounded input
(`a.mant ≤ 2 ^ 24`, so `a' < 2 ^ 26` and `E4 ≤ 12`). -/
def f32Sqrt (a : F32) : F32 :=
  if a.mant = 0 then ⟨0, 0⟩
  else
    let a' := if a.exp % 2 = 0 then a.mant else 2 * a.mant
    let h : ℤ := if a.exp % 2 = 0 then a.exp / 2 else (a.exp - 1) / 2
    let E4 := natLog2 a' / 2
    let X := a' * 4 ^ (23 - E4)
    let k := natSqrt X
    let m := if 4 * X < (2 * k + 1) ^ 2 then k
             else if (2 * k + 1) ^ 2 < 4 * X then k + 1
             else if k % 2 = 0 then k else k + 1
    ⟨m, (E4 : ℤ) - 23 + h⟩

/-- `f32::floor` followed by exact extraction to `ℕ`: the floor of a
float is always itself representable, so no further rounding occurs. -/
def f32floor (a : F32) : ℕ :=
  match a.exp with
  | .ofNat k => a.mant * 2 ^ k
  | .negSucc k => a.mant / 2 ^ (k + 1)

/-- `f32::ceil` followed by exact extraction to `ℕ`. -/
def f32ceil (a : F32) : ℕ :=
  match a.exp with
  | .ofNat k => a.mant * 2 ^ k
  | .negSucc k => (a.mant + 2 ^ (k + 1) - 1) / 2 ^ (k + 1)

/-- The `u32` modulus. -/
def U32 : ℕ := 2 ^ 32

/-- `u32::MAX`. -/
def u32MAX : ℕ := 2 ^ 32 - 1

/-- Rust's saturating float-to-`u32` cast (`as u32`) on a nonnegative
integral float value. -/
def u32cast (n : ℕ) : ℕ := min n u32MAX

/-- Models `(images.len() as f32 / row_count as f32).ceil() as u32`
from `create_spritesheet`.  Division by `0.0` yields `+∞` (`NaN` for
`0.0 / 0.0`); `∞ as u32` saturates to `u32::MAX` and `NaN as u32`
is `0`. -/
def f32CeilDivU32 (len rc : ℕ) : ℕ :=
  if rc = 0 then (if len = 0 then 0 else u32MAX)
  else u32cast (f32ceil (f32UDiv (natToF32 len) (natToF32 rc)))

/-- `calculate_row_count` from the source:
`(images_count as f32).sqrt().floor() as u32`. -/
def calculate_row_count (images_count : ℕ) : ℕ :=
  u32cast (f32floor (f32Sqrt (natToF32 images_count)))

/-! ## Data model -/

/-- An RGBA pixel value. -/
abbrev Pix : Type := ℕ × ℕ × ℕ × ℕ

/-- The all-zero RGBA pixel, the transparent colour
`DynamicImage::new_rgba8` initialises the canvas with. -/
def transparent : Pix := (0, 0, 0, 0)

/-- A decoded image (`image::DynamicImage`): a width, a height and a
pixel buffer, modelled as a total function on coordinates. -/
structure Img where
  width : ℕ
  height : ℕ
  pix : ℕ → ℕ → Pix

/-- The error enum `SpritesheetErr` of the source. -/
inductive SpritesheetErr
  | NoImagesFound
  | FilterImages
  | ImageSaveError
  | ParseError
  deriving DecidableEq

/-- The subset of `image::ImageFormat` the program recognises. -/
inductive ImageFormat
  | Png
  | Jpeg
  | Bmp
  deriving DecidableEq

/-! ## `get_settings` -/

/-- `get_settings` from the source, over the full argument vector
(index 0 is the program name):
`args.get(1).map(|value| value == "auto").is_some()`. -/
def get_settings (args : List String) : Bool :=
  ((args.get? 1).map (fun value => value == "auto")).isSome

/-! ## `get_input_row_count` -/

/-- Rust's `str::trim`: strip whitespace from both ends. -/
def rust_trim (cs : List Char) : List Char :=
  ((cs.dropWhile Char.isWhitespace).reverse.dropWhile Char.isWhitespace).reverse

/-- Rust's `str::parse::<u32>`: an optional leading `+`, then one or
more ASCII digits, rejecting the empty string, any other character and
values `≥ 2 ^ 32` (overflow). -/
def parseU32 (cs : List Char) : Option ℕ :=
  let ds := match cs with
    | '+' :: rest => rest
    | _ => cs
  if ds ≠ [] ∧ ds.all Char.isDigit then
    let n := ds.foldl (fun acc c => 10 * acc + (c.toNat - 48)) 0
    if n < 2 ^ 32 then some n else none
  else none

/-- `get_input_row_count` from the source, as a function of the line
read from standard input: `input_string.trim().parse()`, with the
`ParseIntError → SpritesheetErr::ParseError` conversion applied by
the `?` in `try_create_spritesheet`. -/
def get_input_row_count (input_string : String) : Except SpritesheetErr ℕ :=
  match parseU32 (rust_trim input_string.data) with
  | some n => .ok n
  | none => .error .ParseError

/-! ## File classification (`find_images_path` / `get_image_format`) -/

/-- `get_image_format` from the source. -/
def get_image_format (str : String) : Option ImageFormat :=
  if str = "png" then some .Png
  else if str = "jpeg" then some .Jpeg
  else if str = "bmp" then some .Bmp
  else none

/-- Rust's `str::split('.')` (the source splits on the string `"."`,
a single-character pattern): maximal runs between dots, keeping empty
segments, so `"a.b"` ↦ `["a","b"]`, `"abc"` ↦ `["abc"]`,
`".x"` ↦ `["","x"]`, `"a."` ↦ `["a",""]`. -/
def splitOnDot : List Char → List (List Char)
  | [] => [[]]
  | c :: cs =>
    if c = '.' then [] :: splitOnDot cs
    else (c :: (splitOnDot cs).headI) :: (splitOnDot cs).tail

/-- The per-file classification inside `find_images_path`:
`let extension: Vec<&str> = file_name.split(".").collect;`
`get_image_format(extension[1])`.  The outer `none` is the panic of
the out-of-bounds index `extension[1]` when the name has no dot. -/
def file_classification (file_name : String) : Option (Option ImageFormat) :=
  match (splitOnDot file_name.data).get? 1 with
  | none => none
  | some seg => some (get_image_format (String.mk seg))

/-! ## `filter_images` -/

/-- The grouping key of an image, as built in `filter_images`:
`(image.height(), image.width())`. -/
def resKey (image : Img) : ℕ × ℕ := (image.height, image.width)

/-- One `resolution_map.entry(key).or_default(); *key += 1` step.
The `HashMap` is modelled as an association list in first-insertion
order: an existing entry is incremented in place, a new key is
appended. -/
def bumpEntry : List ((ℕ × ℕ) × ℕ) → ℕ × ℕ → List ((ℕ × ℕ) × ℕ)
  | [], k => [(k, 1)]
  | (k', c) :: rest, k =>
    if k' = k then (k', c + 1) :: rest else (k', c) :: bumpEntry rest k

/-- The first loop of `filter_images`: build the resolution map. -/
def build_resolution_map (images : List Img) : List ((ℕ × ℕ) × ℕ) :=
  images.foldl (fun m image => bumpEntry m (resKey image)) []

/-- `Iterator::max` over the map's values (`values().max()`):
`none` on an empty iterator. -/
def values_max : List ℕ → Option ℕ
  | [] => none
  | v :: vs =>
    some (match values_max vs with
      | none => v
      | some m => max v m)

/-- `filter_images` from the source.  `none` models the panic of
`resolution_map.values().max().unwrap()` on an empty map.  The
selection loop takes the first entry (in map-iteration order,
modelled as insertion order) whose count equals the maximum; if the
winner is the sentinel `(0, 0)` the defensive check returns
`Err(SpritesheetErr::FilterImages)`. -/
def filter_images (images : List Img) :
    Option (Except SpritesheetErr (List Img)) :=
  (values_max ((build_resolution_map images).map Prod.snd)).map
    (fun max_popular_value =>
      let popular_resolution : ℕ × ℕ :=
        (((build_resolution_map images).find?
          (fun entry => entry.2 = max_popular_value)).map Prod.fst).getD (0, 0)
      if popular_resolution = (0, 0) then .error .FilterImages
      else
        .ok (images.filter (fun image =>
          image.height == popular_resolution.1 &&
          image.width == popular_resolution.2)))

/-! ## `create_spritesheet` -/

/-- `GenericImage::copy_from(&src, x, y)` of the `image` crate on an
RGBA canvas: fails (the caller's `.unwrap()` then panics) unless the
source rectangle fits, otherwise overwrites the rectangle
`[x, x + src.width) × [y, y + src.height)` with the source's pixels. -/
def copy_from (dst src : Img) (x y : ℕ) : Option Img :=
  if dst.width < src.width + x ∨ dst.height < src.height + y then none
  else
    some (Img.mk dst.width dst.height (fun i j =>
      if x ≤ i ∧ i < x + src.width ∧ y ≤ j ∧ j < y + src.height then
        src.pix (i - x) (j - y)
      else dst.pix i j))

/-- The inner placement loop of `create_spritesheet`
(`for x in 0..row_count`), at destination row `y`, over the remaining
column list `xs`, carrying the running `image_index`.  The guard
`images.len() - 1 < image_index` (`ℕ` subtraction, as in Rust for the
nonempty lists this is run on) `break`s out of the loop — and since
the index only grows, every later iteration of the inner loop would
break too, so returning the state unchanged is exact.  Each copy is at
u32 offsets `x * image_res.0`, `y * image_res.1` (reduced `% 2³²`);
a failed `copy_from(...).unwrap()` is the panic `none`. -/
def compose_row (images : List Img) (w0 h0 : ℕ) (y : ℕ) :
    List ℕ → ℕ → Img → Option (Img × ℕ)
  | [], image_index, spritesheet => some (spritesheet, image_index)
  | x :: xs, image_index, spritesheet =>
    if images.length - 1 < image_index then some (spritesheet, image_index)
    else
      (images.get? image_index).bind fun image =>
        (copy_from spritesheet image ((x * w0) % U32) ((y * h0) % U32)).bind
          fun spritesheet' =>
            compose_row images w0 h0 y xs (image_index + 1) spritesheet'

/-- The outer placement loop of `create_spritesheet`
(`for y in 0..height`), over the remaining row list `ys`; the pair
carried through is (canvas so far, running `image_index`). -/
def compose_rows (images : List Img) (w0 h0 rc : ℕ) :
    List ℕ → ℕ → Img → Option Img
  | [], _, spritesheet => some spritesheet
  | y :: ys, image_index, spritesheet =>
    (compose_row images w0 h0 y (List.range rc) image_index spritesheet).bind
      fun r => compose_rows images w0 h0 rc ys r.2 r.1

/-- `create_spritesheet` from the source.  `images[0]` panics (`none`)
on an empty list; `height` is the f32 ceiling division cast to u32;
the canvas dimensions are the u32 products
`(row_count * images[0].width(), height * images[0].height())`
(wrapping `% 2³²`); the canvas starts fully `transparent`
(`DynamicImage::new_rgba8`). -/
def create_spritesheet (row_count : ℕ) (images : List Img) : Option Img :=
  match images with
  | [] => none
  | image0 :: _ =>
    let image_res := (image0.width, image0.height)
    let height := f32CeilDivU32 images.length row_count
    let resolution := ((row_count * image0.width) % U32,
                       (height * image0.height) % U32)
    let spritesheet := Img.mk resolution.1 resolution.2 (fun _ _ => transparent)
    compose_rows images image_res.1 image_res.2 row_count
      (List.range height) 0 spritesheet

/-! ## Helper notions used only in theorem statements -/

/-- The segment of a file name immediately after the first dot
(up to the following dot, if any). -/
def firstDotSegment (cs : List Char) : List Char :=
  ((cs.dropWhile (· != '.')).drop 1).takeWhile (· != '.')

/-- How many images of the list carry the given `(height, width)` key. -/
def resCount (images : List Img) (p : ℕ × ℕ) : ℕ :=
  images.countP (fun image => resKey image == p)

/-- The count stored under a key in the association-list model of the
resolution map (`0` when absent). -/
def lookupC : List ((ℕ × ℕ) × ℕ) → ℕ × ℕ → ℕ
  | [], _ => 0
  | (k', c) :: rest, k => if k' = k then c else lookupC rest k

/-- Placeholder image for total indexing in statements. -/
def defaultImg : Img := ⟨0, 0, fun _ _ => transparent⟩

/-- The pixel the canvas holds after the first `n` images have been
placed on the `rc × H` grid of `w × h` cells: coordinate `(p, q)` lies
in grid cell `(p / w, q / h)`, which is filled by the image of index
`(q / h) * rc + p / w` when that index is below `n` (row-major
placement), and is transparent otherwise. -/
def partialPix (images : List Img) (rc w h n p q : ℕ) : Pix :=
  if p / w < rc ∧ (q / h) * rc + p / w < n then
    ((images.get? ((q / h) * rc + p / w)).getD defaultImg).pix (p % w) (q % h)
  else transparent

/-! ## General helper lemmas -/

/-- `Nat.sqrt` is characterised by the two squares surrounding `n`. -/
theorem natSqrtEq {n c : ℕ} (h1 : c ^ 2 ≤ n) (h2 : n < (c + 1) ^ 2) :
    Nat.sqrt n = c := by
  have h3 : c ≤ Nat.sqrt n := Nat.le_sqrt.mpr (by nlinarith)
  have h4 : Nat.sqrt n < c + 1 := Nat.sqrt_lt.mpr (by nlinarith)
  omega

/-! ## The f32 model below the precision threshold

The following lemmas prove the model exact in the ranges the program's
realistic inputs inhabit: `natSqrt` and `natLog2` agree with
`Nat.sqrt` and `⌊log₂⌋`, integers below `2²⁴` convert to `f32`
exactly, and the f32 ceiling division and square-root-floor agree
with their exact integer counterparts for operands below `2²⁴`. -/

theorem sqrtGo_eq_iter : ∀ (fuel n g : ℕ), g ≤ fuel →
    sqrtGo fuel n g = Nat.sqrt.iter n g := by
  intro fuel
  induction fuel with
  | zero =>
    intro n g hg
    have hg0 : g = 0 := by omega
    subst hg0
    rw [show sqrtGo 0 n 0 = 0 from rfl, Nat.sqrt.iter]
    norm_num
  | succ fuel ih =>
    intro n g hg
    rw [Nat.sqrt.iter]
    simp only [sqrtGo]
    by_cases hlt : (g + n / g) / 2 < g
    · rw [if_pos hlt, dif_pos hlt]
      exact ih n _ (by omega)
    · rw [if_neg hlt, dif_neg hlt]

/-- `natSqrt` is `Nat.sqrt`: the fuel `n` always suffices for the
Newton iteration, whose guess strictly decreases. -/
theorem natSqrt_eq_sqrt (n : ℕ) : natSqrt n = Nat.sqrt n := by
  unfold natSqrt Nat.sqrt
  by_cases h : n ≤ 1
  · rw [if_pos h, if_pos h]
  · rw [if_neg h, if_neg h]
    exact sqrtGo_eq_iter n n (n / 2) (by omega)

theorem log2Go_spec : ∀ (fuel n : ℕ), 1 ≤ n → n ≤ fuel →
    2 ^ log2Go fuel n ≤ n ∧ n < 2 ^ (log2Go fuel n + 1) := by
  intro fuel
  induction fuel with
  | zero =>
    intro n h1 h2
    exact absurd (le_trans h1 h2) (by norm_num)
  | succ fuel ih =>
    intro n h1 h2
    by_cases hn : n ≤ 1
    · have : n = 1 := by omega
      subst this
      simp [log2Go]
    · have h2' : n / 2 ≤ fuel := by omega
      have h1' : 1 ≤ n / 2 := by omega
      obtain ⟨ha, hb⟩ := ih (n / 2) h1' h2'
      have hstep : log2Go (fuel + 1) n = log2Go fuel (n / 2) + 1 := by
        simp only [log2Go, if_neg hn]
      rw [hstep]
      constructor
      · rw [pow_succ]
        have := Nat.div_add_mod n 2
        omega
      · rw [pow_succ]
        have := Nat.div_add_mod n 2
        omega

theorem natLog2_spec (n : ℕ) (h : 1 ≤ n) :
    2 ^ natLog2 n ≤ n ∧ n < 2 ^ (natLog2 n + 1) :=
  log2Go_spec n n h (le_refl n)

theorem natLog2_le {n E : ℕ} (h : 1 ≤ n) (hn : n < 2 ^ (E + 1)) :
    natLog2 n ≤ E := by
  by_contra hcon
  have hE1 : E + 1 ≤ natLog2 n := by omega
  have := (natLog2_spec n h).1
  have hmono : (2 : ℕ) ^ (E + 1) ≤ 2 ^ natLog2 n :=
    Nat.pow_le_pow_right (by omega) hE1
  omega

theorem natLog2_ge {n E : ℕ} (h : 1 ≤ n) (hn : 2 ^ E ≤ n) :
    E ≤ natLog2 n := by
  by_contra hcon
  have hE1 : natLog2 n + 1 ≤ E := by omega
  have := (natLog2_spec n h).2
  have hmono : (2 : ℕ) ^ (natLog2 n + 1) ≤ 2 ^ E :=
    Nat.pow_le_pow_right (by omega) hE1
  omega

/-- The rounded quotient is within half a unit of the true quotient:
`|rneDiv a b - a / b| ≤ 1 / 2`, cleared of denominators. -/
theorem rneDiv_spec (a b : ℕ) (hb : 0 < b) :
    2 * (b * rneDiv a b) ≤ 2 * a + b ∧ 2 * a ≤ 2 * (b * rneDiv a b) + b := by
  have hdm := Nat.div_add_mod a b
  have hml : a % b < b := Nat.mod_lt _ hb
  have e1 : b * (a / b + 1) = b * (a / b) + b := by ring
  simp only [rneDiv]
  split
  · constructor <;> omega
  · split
    · rw [e1]
      constructor <;> omega
    · split
      · constructor <;> omega
      · rw [e1]
        constructor <;> omega

theorem rneDiv_one (a : ℕ) : rneDiv a 1 = a := by
  simp [rneDiv, Nat.mod_one, Nat.div_one]

/-- Integers below `2²⁴` are exactly representable in binary32. -/
theorem natToF32_small (n : ℕ) (h : n < 2 ^ 24) : natToF32 n = ⟨n, 0⟩ := by
  unfold natToF32
  rcases Nat.eq_zero_or_pos n with rfl | hn
  · rw [if_pos (by rw [show natLog2 0 = 0 from rfl]; omega)]
  · rw [if_pos (natLog2_le hn (by
      calc n < 2 ^ 24 := h
      _ ≤ 2 ^ (23 + 1) := by norm_num))]

/-- Core of the division-exactness argument: rounding `a * D / b` to
the nearest integer (ties either way) and taking the ceiling of the
result scaled back by `D` recovers `⌈a / b⌉` exactly, provided
`b < 2 * D` — i.e. provided half a unit in the last place is smaller
than the gap `1 / b` between distinct quotients. -/
theorem rneDiv_ceil_eq (a b D : ℕ) (hb : 0 < b) (hD : 0 < D)
    (hbD : b < 2 * D) (ha : 1 ≤ a) :
    (rneDiv (a * D) b + D - 1) / D = (a + b - 1) / b := by
  obtain ⟨hm1, hm2⟩ := rneDiv_spec (a * D) b hb
  obtain ⟨l, rfl⟩ : ∃ l, a = l + 1 := ⟨a - 1, by omega⟩
  have hceq : (l + 1 + b - 1) / b = l / b + 1 := by
    rw [show l + 1 + b - 1 = l + b from by omega, Nat.add_div_right _ hb]
  rw [hceq]
  have hdm := Nat.div_add_mod l b
  have hml : l % b < b := Nat.mod_lt _ hb
  have hub : rneDiv ((l + 1) * D) b ≤ (l / b + 1) * D := by
    by_contra hcon
    push_neg at hcon
    have k1 : b * ((l / b + 1) * D + 1) ≤ b * rneDiv ((l + 1) * D) b :=
      Nat.mul_le_mul_left _ hcon
    have k2 : (l + 1) * D ≤ (b * (l / b) + b) * D :=
      Nat.mul_le_mul_right _ (by omega)
    have e2 : (b * (l / b) + b) * D = b * ((l / b + 1) * D) := by ring
    have e3 : b * ((l / b + 1) * D + 1) = b * ((l / b + 1) * D) + b := by ring
    omega
  have hlb : (l / b) * D < rneDiv ((l + 1) * D) b := by
    by_contra hcon
    push_neg at hcon
    have k1 : b * rneDiv ((l + 1) * D) b ≤ b * ((l / b) * D) :=
      Nat.mul_le_mul_left _ hcon
    have k2 : (b * (l / b) + 1) * D ≤ (l + 1) * D :=
      Nat.mul_le_mul_right _ (by omega)
    have e2 : (b * (l / b) + 1) * D = b * ((l / b) * D) + D := by ring
    omega
  have e4 : (l / b) * D + D = (l / b + 1) * D := by ring
  have e5 : (l / b + 1 + 1) * D = (l / b + 1) * D + D := by ring
  exact Nat.div_eq_of_lt_le (by omega) (by omega)

/-- The f32 ceiling of the quotient of two exactly represented
integers below `2²⁴` is the exact integer ceiling. -/
theorem f32UDiv_ceil (a b : ℕ) (ha1 : 1 ≤ a) (ha2 : a < 2 ^ 24)
    (hb1 : 1 ≤ b) (hb2 : b < 2 ^ 24) :
    f32ceil (f32UDiv ⟨a, 0⟩ ⟨b, 0⟩) = (a + b - 1) / b := by
  have hbpos : 0 < b := hb1
  have hbs : b < 2 ^ (natLog2 b + 1) := (natLog2_spec b hb1).2
  obtain ⟨s, hsg⟩ : ∃ s, natLog2 b + 1 = s := ⟨_, rfl⟩
  rw [hsg] at hbs
  have hq1 : 1 ≤ a * 2 ^ s / b := by
    rw [Nat.one_le_div_iff hbpos]
    calc b ≤ 2 ^ s := le_of_lt hbs
    _ = 1 * 2 ^ s := (Nat.one_mul _).symm
    _ ≤ a * 2 ^ s := Nat.mul_le_mul_right _ ha1
  obtain ⟨hcl, hch⟩ := natLog2_spec _ hq1
  have hlow : 2 ^ natLog2 (a * 2 ^ s / b) * b ≤ a * 2 ^ s :=
    (Nat.le_div_iff_mul_le hbpos).mp hcl
  have hhigh : a * 2 ^ s < 2 ^ (natLog2 (a * 2 ^ s / b) + 1) * b :=
    (Nat.div_lt_iff_lt_mul hbpos).mp hch
  obtain ⟨Lz, hLzg⟩ : ∃ L, natLog2 (a * 2 ^ s / b) = L := ⟨_, rfl⟩
  rw [hLzg] at hlow hhigh
  -- `Lz ≤ s + 23`, because `a / b < 2 ^ 24 ≤ 2 ^ (Lz + 1 - s)` otherwise
  have hp3 : a * 2 ^ s < 2 ^ 24 * 2 ^ s :=
    mul_lt_mul_of_pos_right ha2 (pow_pos (by norm_num) s)
  have hLzle : Lz ≤ s + 23 := by
    by_contra hcon
    have h24 : s + 24 ≤ Lz := by omega
    have hp1 : (2 : ℕ) ^ (s + 24) ≤ 2 ^ Lz := Nat.pow_le_pow_right (by omega) h24
    have hp2 : 2 ^ Lz * 1 ≤ 2 ^ Lz * b := Nat.mul_le_mul_left _ hb1
    have hp4 : (2 : ℕ) ^ 24 * 2 ^ s = 2 ^ (s + 24) := by
      rw [← pow_add, Nat.add_comm]
    omega
  simp only [f32UDiv]
  rw [if_neg (by
    simp only [not_or]
    exact ⟨by omega, by omega⟩)]
  rw [hsg, hLzg]
  split
  · -- the branch `23 - L < 0` is impossible for `a < 2 ^ 24`
    rename_i hneg
    exfalso
    omega
  · rename_i hpos
    rcases Nat.lt_or_ge Lz (s + 23) with hlt | hge
    · -- general case: positive scaling `D = 2 ^ (23 + s - Lz)`
      have ht' : (23 - ((Lz : ℤ) - (s : ℤ))).toNat = 23 + s - Lz := by omega
      rw [ht']
      have hDpos : 0 < 2 ^ (23 + s - Lz) := pow_pos (by norm_num) _
      have e : (2 : ℕ) ^ 24 * 2 ^ s = 2 ^ Lz * (2 * 2 ^ (23 + s - Lz)) := by
        rw [← pow_succ', show 23 + s - Lz + 1 = 24 + s - Lz from by omega,
          ← pow_add, ← pow_add, show Lz + (24 + s - Lz) = 24 + s from by omega]
      have hchain : 2 ^ Lz * b < 2 ^ Lz * (2 * 2 ^ (23 + s - Lz)) := by
        calc 2 ^ Lz * b ≤ a * 2 ^ s := hlow
        _ < 2 ^ 24 * 2 ^ s := hp3
        _ = 2 ^ Lz * (2 * 2 ^ (23 + s - Lz)) := e
      have hbD : b < 2 * 2 ^ (23 + s - Lz) :=
        lt_of_mul_lt_mul_left hchain (Nat.zero_le _)
      have hexp2 : (Lz : ℤ) - ↑s + 0 - 0 - 23 = Int.negSucc (23 + s - Lz - 1) := by
        rw [Int.negSucc_eq]
        omega
      rw [hexp2]
      simp only [f32ceil]
      rw [show 23 + s - Lz - 1 + 1 = 23 + s - Lz from by omega]
      exact rneDiv_ceil_eq a b _ hbpos hDpos hbD ha1
    · -- boundary case `Lz = s + 23`: forces `b = 1`
      have hLzeq : Lz = s + 23 := by omega
      have hb1' : b = 1 := by
        have he : (2 : ℕ) ^ Lz * b = 2 ^ s * (2 ^ 23 * b) := by
          rw [hLzeq, pow_add]
          ring
        have he2 : (2 : ℕ) ^ 24 * 2 ^ s = 2 ^ s * (2 ^ 23 * 2) := by
          rw [show (2 : ℕ) ^ 24 = 2 ^ 23 * 2 from by norm_num]
          ring
        have hchain2 : 2 ^ s * (2 ^ 23 * b) < 2 ^ s * (2 ^ 23 * 2) := by
          rw [← he, ← he2]
          omega
        have h23 : (2 : ℕ) ^ 23 * b < 2 ^ 23 * 2 :=
          lt_of_mul_lt_mul_left hchain2 (Nat.zero_le _)
        have hlt2 : b < 2 := lt_of_mul_lt_mul_left h23 (Nat.zero_le _)
        omega
      have ht0 : (23 - ((Lz : ℤ) - (s : ℤ))).toNat = 0 := by omega
      rw [ht0]
      have hexp0 : (Lz : ℤ) - ↑s + 0 - 0 - 23 = Int.ofNat 0 := by
        rw [show Int.ofNat 0 = (0 : ℤ) from rfl]
        omega
      rw [hexp0]
      simp only [f32ceil]
      rw [hb1', pow_zero, Nat.mul_one, rneDiv_one]
      simp

/-- Below `2²⁴` the f32 ceiling division of `create_spritesheet`
agrees with the exact ceiling `⌈len / rc⌉`. -/
theorem f32CeilDivU32_exact (len rc : ℕ) (h1 : 1 ≤ len) (h2 : len < 2 ^ 24)
    (h3 : 1 ≤ rc) (h4 : rc < 2 ^ 24) :
    f32CeilDivU32 len rc = (len + rc - 1) / rc := by
  unfold f32CeilDivU32
  rw [if_neg (by omega : ¬ rc = 0), natToF32_small len h2, natToF32_small rc h4,
    f32UDiv_ceil len rc h1 h2 h3 h4]
  have hle : (len + rc - 1) / rc ≤ len := by
    obtain ⟨l, rfl⟩ : ∃ l, len = l + 1 := ⟨len - 1, by omega⟩
    rw [show l + 1 + rc - 1 = l + rc from by omega, Nat.add_div_right _ (by omega)]
    have : l / rc ≤ l := Nat.div_le_self _ _
    omega
  unfold u32cast u32MAX
  omega

/-- For inputs below `2²⁴` the f32 square root followed by `floor`
is exactly the integer square root: the correctly rounded f32 root
differs from `√n` by at most half an ulp (`2⁻¹⁻…`), and below `2²⁴`
no integer lies within half an ulp above an irrational `√n`. -/
theorem f32Sqrt_floor_small (n : ℕ) (h1 : 1 ≤ n) (h2 : n < 2 ^ 24) :
    f32floor (f32Sqrt ⟨n, 0⟩) = Nat.sqrt n := by
  have hE4' : natLog2 n ≤ 23 := natLog2_le h1 (by
    rw [show (23 : ℕ) + 1 = 24 from rfl]
    exact h2)
  obtain ⟨E4, hE4g⟩ : ∃ E, natLog2 n / 2 = E := ⟨_, rfl⟩
  have hE4 : E4 ≤ 11 := by omega
  obtain ⟨t, ht⟩ : ∃ t, 23 - E4 = t := ⟨_, rfl⟩
  have ht12 : 12 ≤ t := by omega
  have hfour : (4 : ℕ) ^ t = 2 ^ t * 2 ^ t := by
    rw [show (4 : ℕ) = 2 * 2 from rfl, mul_pow]
  obtain ⟨s, hs⟩ : ∃ s, Nat.sqrt n = s := ⟨_, rfl⟩
  have hss : s * s ≤ n := Nat.le_sqrt.mp (le_of_eq hs.symm)
  have hns : n < (s + 1) * (s + 1) := Nat.sqrt_lt.mp (by omega)
  have hslt : s < 2 ^ 12 := by
    rw [← hs]
    refine Nat.sqrt_lt.mpr ?_
    calc n < 2 ^ 24 := h2
    _ = 2 ^ 12 * 2 ^ 12 := by norm_num
  have h2t : (2 : ℕ) ^ 12 ≤ 2 ^ t := Nat.pow_le_pow_right (by norm_num) ht12
  have hsA : s + 1 ≤ 2 ^ t := le_trans (by omega) h2t
  simp only [f32Sqrt]
  rw [if_neg (show ¬ n = 0 from by omega)]
  have h02 : ((0 : ℤ) % 2 = 0) := by decide
  rw [if_pos h02, if_pos h02]
  rw [show ((0 : ℤ) / 2 : ℤ) = 0 from rfl]
  rw [hE4g, ht]
  obtain ⟨k, hk⟩ : ∃ k, natSqrt (n * 4 ^ t) = k := ⟨_, rfl⟩
  rw [hk]
  have hks : k = Nat.sqrt (n * 4 ^ t) := by
    rw [← hk]
    exact natSqrt_eq_sqrt _
  have hksl : s * 2 ^ t ≤ k := by
    rw [hks]
    refine Nat.le_sqrt.mpr ?_
    have e : s * 2 ^ t * (s * 2 ^ t) = s * s * (2 ^ t * 2 ^ t) := by ring
    rw [e, hfour]
    exact Nat.mul_le_mul_right _ hss
  have hkub : k < (s + 1) * 2 ^ t := by
    rw [hks]
    refine Nat.sqrt_lt.mpr ?_
    calc n * 4 ^ t = n * (2 ^ t * 2 ^ t) := by rw [hfour]
    _ < (s + 1) * (s + 1) * (2 ^ t * 2 ^ t) :=
      mul_lt_mul_of_pos_right hns (by positivity)
    _ = (s + 1) * 2 ^ t * ((s + 1) * 2 ^ t) := by ring
  have hbound : (2 * k + 1) ^ 2 ≤ 4 * (n * 4 ^ t) → k + 1 < (s + 1) * 2 ^ t := by
    intro hge
    rcases Nat.lt_or_ge (k + 1) ((s + 1) * 2 ^ t) with hcase | hcase
    · exact hcase
    · exfalso
      have hkeq : k + 1 = (s + 1) * 2 ^ t := by omega
      have hk1F : k + 1 ≤ 4 ^ t := by
        calc k + 1 = (s + 1) * 2 ^ t := hkeq
        _ ≤ 2 ^ t * 2 ^ t := Nat.mul_le_mul_right _ hsA
        _ = 4 ^ t := hfour.symm
      have e1 : (k + 1) * (k + 1) = (s + 1) * (s + 1) * 4 ^ t := by
        rw [hkeq, hfour]
        ring
      have e7 : (k + 1) * (k + 1) = k * k + 2 * k + 1 := by ring
      have hPF : (n + 1) * 4 ^ t ≤ (s + 1) * (s + 1) * 4 ^ t :=
        Nat.mul_le_mul_right _ (by omega)
      have e3 : (n + 1) * 4 ^ t = n * 4 ^ t + 4 ^ t := by ring
      have e5 : (2 * k + 1) ^ 2 = 4 * (k * k) + 4 * k + 1 := by ring
      omega
  have hexp : (E4 : ℤ) - 23 + 0 = Int.negSucc (t - 1) := by
    rw [Int.negSucc_eq]
    omega
  rw [hexp]
  simp only [f32floor]
  rw [show t - 1 + 1 = t from by omega, hs]
  split
  · exact Nat.div_eq_of_lt_le hksl hkub
  · rename_i hnlt
    have hge' : (2 * k + 1) ^ 2 ≤ 4 * (n * 4 ^ t) := by omega
    have hk1 : k + 1 < (s + 1) * 2 ^ t := hbound hge'
    split
    · exact Nat.div_eq_of_lt_le (by omega) hk1
    · split
      · exact Nat.div_eq_of_lt_le hksl hkub
      · exact Nat.div_eq_of_lt_le (by omega) hk1

/-- `calculate_row_count` is exactly `⌊√imageCount⌋` for every count
up to `2²⁴` (the f32 precision threshold). -/
theorem calculate_row_count_eq_sqrt (n : ℕ) (h : n ≤ 2 ^ 24) :
    calculate_row_count n = Nat.sqrt n := by
  rcases Nat.eq_zero_or_pos n with rfl | hn
  · rfl
  rcases Nat.lt_or_ge n (2 ^ 24) with hlt | hge
  · unfold calculate_row_count
    rw [natToF32_small n hlt, f32Sqrt_floor_small n hn hlt]
    have h1 : Nat.sqrt n ≤ n := Nat.sqrt_le_self n
    unfold u32cast u32MAX
    omega
  · have hn24 : n = 2 ^ 24 := by omega
    subst hn24
    rw [natSqrtEq (show 4096 ^ 2 ≤ 2 ^ 24 from by norm_num)
      (show (2 : ℕ) ^ 24 < (4096 + 1) ^ 2 from by norm_num)]
    decide

/-! ## C7: automatic row count

The spec claims `rowCount = floor(sqrt(imageCount))` exactly, as an
integer function.  The code computes it in `f32`; the f32 square root
of a large integer can round up across an integer boundary, so the
claim fails at `imageCount = 16785408 = 4097² - 1` (representable
exactly in binary32): `sqrt` returns exactly `4097.0` there and the
code yields `4097`, while `⌊√16785408⌋ = 4096`.  Below the f32
precision threshold `2²⁴` the two agree, by the exact rounding
analysis of `f32Sqrt_floor_small`. -/

/-- C7 (amended): automatic row-count mode computes
`rowCount = floor(sqrt(imageCount))` for every `imageCount ≤ 2²⁴`
(in particular `9 ↦ 3` and `10 ↦ 3`); the f32 computation it uses
diverges from `floor(sqrt(imageCount))` beyond that threshold
(counterexample: `imageCount = 16785408 = 4097² - 1`). -/
theorem c7_row_count_floor_sqrt_small :
    ∀ n, n ≤ 2 ^ 24 → calculate_row_count n = Nat.sqrt n := by
  intro n hn
  exact calculate_row_count_eq_sqrt n hn

/-- C7 witness: the two instances named by the claim. -/
theorem c7_witness : calculate_row_count 9 = 3 ∧ calculate_row_count 10 = 3 := by
  have e9 : Nat.sqrt 9 = 3 := natSqrtEq (by norm_num) (by norm_num)
  have e10 : Nat.sqrt 10 = 3 := natSqrtEq (by norm_num) (by norm_num)
  exact ⟨(c7_row_count_floor_sqrt_small 9 (by norm_num)).trans e9,
         (c7_row_count_floor_sqrt_small 10 (by norm_num)).trans e10⟩

/-- C7 counterexample: at `imageCount = 16785408` the code returns
`4097`, not `⌊√16785408⌋ = 4096` — the f32 square root of
`4097² - 1` rounds up to exactly `4097.0`. -/
theorem c7_counterexample :
    calculate_row_count 16785408 ≠ Nat.sqrt 16785408 := by
  have h1 : calculate_row_count 16785408 = 4097 := by decide
  have h2 : Nat.sqrt 16785408 = 4096 := natSqrtEq (by norm_num) (by norm_num)
  omega

/-! ## C4: mode selection -/

/-- C4: mode selection is buggy in the source: `get_settings` computes
`args.get(1).map(|value| value == "auto").is_some()`, whose
`is_some()` discards the result of the comparison, so *any* present
first positional argument selects automatic mode — `"manual"` behaves
like `"auto"` — and only the absence of an argument selects
interactive mode.  This contradicts the spec's «the literal value
`auto` selects automatic row-count mode, anything else … selects
interactive/manual mode»; the dead comparison `value == "auto"` shows
the spec is the intent and the code a slip. -/
theorem c4_get_settings_any_argument :
    get_settings ["spritesheet-packer", "manual"] = true ∧
    get_settings ["spritesheet-packer", "auto"] = true ∧
    get_settings ["spritesheet-packer"] = false := by
  exact ⟨rfl, rfl, rfl⟩

/-! ## C9: manual row-count parsing -/

/-- Successful `u32` parses are bounded by `2 ^ 32`. -/
theorem parseU32_lt {cs : List Char} {n : ℕ} (h : parseU32 cs = some n) :
    n < 2 ^ 32 := by
  simp only [parseU32] at h
  split at h
  · split at h
    · exact Option.some_injective _ h ▸ (by assumption)
    · exact Option.noConfusion h
  · exact Option.noConfusion h

/-- C9 (amended): manual mode returns whatever `u32` value the trimmed
input line denotes — *including 0*, contradicting «yields a row count
≥ 1»; a line that is not an unsigned-integer numeral, or denotes a
value `≥ 2³²`, fails with `ParseError`. -/
theorem c9_parse_row_count :
    get_input_row_count "0" = Except.ok 0 ∧
    get_input_row_count " 42\n" = Except.ok 42 ∧
    get_input_row_count "abc" = Except.error SpritesheetErr.ParseError ∧
    get_input_row_count "" = Except.error SpritesheetErr.ParseError ∧
    get_input_row_count "4294967296" = Except.error SpritesheetErr.ParseError ∧
    (∀ s n, get_input_row_count s = Except.ok n → n < 2 ^ 32) := by
  refine ⟨rfl, rfl, rfl, rfl, rfl, ?_⟩
  intro s n h
  unfold get_input_row_count at h
  cases hp : parseU32 (rust_trim s.data) with
  | some k =>
    simp only [hp] at h
    cases h
    exact parseU32_lt hp
  | none =>
    simp only [hp] at h
    exact Except.noConfusion h

/-- C9 witness. -/
theorem c9_witness : get_input_row_count "7" = Except.ok 7 ∧ (7 : ℕ) < 2 ^ 32 :=
  ⟨rfl, c9_parse_row_count.2.2.2.2.2 "7" 7 rfl⟩

/-- C9 counterexample: the line `"0"` parses successfully to `0`,
which is not `≥ 1`, refuting «every successfully parsed input line
yields a row count ≥ 1». -/
theorem c9_counterexample :
    ¬ (∀ n, get_input_row_count "0" = Except.ok n → 1 ≤ n) := by
  intro h
  exact absurd (h 0 rfl) (by omega)

/-! ## C10: file classification -/

/-- The recognised-format test, explicitly. -/
theorem get_image_format_isSome (s : String) :
    (get_image_format s).isSome = true ↔ s = "png" ∨ s = "jpeg" ∨ s = "bmp" := by
  by_cases h1 : s = "png" <;> by_cases h2 : s = "jpeg" <;> by_cases h3 : s = "bmp" <;>
    simp [get_image_format, h1, h2, h3]

theorem splitOnDot_ne_nil (cs : List Char) : splitOnDot cs ≠ [] := by
  cases cs with
  | nil => simp [splitOnDot]
  | cons c cs =>
    simp only [splitOnDot]
    split <;> simp

theorem splitOnDot_get_zero (cs : List Char) :
    (splitOnDot cs).get? 0 = some (cs.takeWhile (· != '.')) := by
  induction cs with
  | nil => rfl
  | cons c cs ih =>
    simp only [splitOnDot]
    split
    · rename_i hc
      subst hc
      simp [List.takeWhile_cons]
    · rename_i hc
      have hb : (c != '.') = true := by simpa [bne_iff_ne] using hc
      cases h : splitOnDot cs with
      | nil => exact absurd h (splitOnDot_ne_nil cs)
      | cons s ss =>
        rw [h] at ih
        have hs : s = cs.takeWhile (· != '.') := by simpa using ih
        simp [List.takeWhile_cons, hb, hs]

theorem splitOnDot_get_one (cs : List Char) :
    (splitOnDot cs).get? 1 =
      if '.' ∈ cs then some (firstDotSegment cs) else none := by
  induction cs with
  | nil => rfl
  | cons c cs ih =>
    simp only [splitOnDot]
    split
    · rename_i hc
      subst hc
      rw [if_pos (List.mem_cons_self _ _)]
      have hseg : firstDotSegment ('.' :: cs) = cs.takeWhile (· != '.') := by
        simp [firstDotSegment, List.dropWhile_cons]
      rw [hseg]
      show (splitOnDot cs).get? 0 = some (cs.takeWhile (· != '.'))
      exact splitOnDot_get_zero cs
    · rename_i hc
      have hb : (c != '.') = true := by simpa [bne_iff_ne] using hc
      have hmem : ('.' ∈ c :: cs) ↔ ('.' ∈ cs) := by
        simp [List.mem_cons, eq_comm, hc]
      have hseg : firstDotSegment (c :: cs) = firstDotSegment cs := by
        simp [firstDotSegment, List.dropWhile_cons, hb]
      rw [hseg]
      cases h : splitOnDot cs with
      | nil => exact absurd h (splitOnDot_ne_nil cs)
      | cons s ss =>
        rw [h] at ih
        show ss.get? 0 = if '.' ∈ c :: cs then some (firstDotSegment cs) else none
        have ih' : ss.get? 0 =
            if '.' ∈ cs then some (firstDotSegment cs) else none := ih
        rw [ih']
        by_cases hd : '.' ∈ cs
        · rw [if_pos hd, if_pos (hmem.mpr hd)]
        · rw [if_neg hd, if_neg (fun hx => hd (hmem.mp hx))]

/-- C10: for every file name containing a dot, the classification in
`find_images_path` is decided by the name segment immediately after
the first dot — accepted exactly when it is `"png"`, `"jpeg"` or
`"bmp"` (so `"a.png.bak"` is classified as PNG) — and for every name
with no dot the access `extension[1]` is out of bounds (a panic,
modelled `none`). -/
theorem c10_classification_first_dot_segment (file_name : String) :
    ('.' ∈ file_name.data →
      file_classification file_name =
        some (get_image_format (String.mk (firstDotSegment file_name.data))) ∧
      ((get_image_format (String.mk (firstDotSegment file_name.data))).isSome = true ↔
        (String.mk (firstDotSegment file_name.data) = "png" ∨
         String.mk (firstDotSegment file_name.data) = "jpeg" ∨
         String.mk (firstDotSegment file_name.data) = "bmp"))) ∧
    ('.' ∉ file_name.data → file_classification file_name = none) := by
  constructor
  · intro hmem
    refine ⟨?_, get_image_format_isSome _⟩
    simp only [file_classification]
    rw [splitOnDot_get_one, if_pos hmem]
  · intro hmem
    simp only [file_classification]
    rw [splitOnDot_get_one, if_neg hmem]

/-- C10 witness: `"a.png.bak"` is classified as PNG from the segment
after the first dot. -/
theorem c10_witness :
    file_classification "a.png.bak" = some (some ImageFormat.Png) := by
  have h := (c10_classification_first_dot_segment "a.png.bak").1 (by decide)
  exact h.1.trans (by decide)

/-! ## The resolution map: counting lemmas -/

theorem lookupC_bump_self (m : List ((ℕ × ℕ) × ℕ)) (k : ℕ × ℕ) :
    lookupC (bumpEntry m k) k = lookupC m k + 1 := by
  induction m with
  | nil => simp [bumpEntry, lookupC]
  | cons e rest ih =>
    obtain ⟨k', c⟩ := e
    simp only [bumpEntry]
    by_cases h : k' = k
    · subst h
      simp [lookupC]
    · simp [lookupC, h, ih]

theorem lookupC_bump_other (m : List ((ℕ × ℕ) × ℕ)) (k q : ℕ × ℕ)
    (hq : k ≠ q) : lookupC (bumpEntry m k) q = lookupC m q := by
  induction m with
  | nil =>
    simp only [bumpEntry, lookupC]
    rw [if_neg hq]
  | cons e rest ih =>
    obtain ⟨k', c⟩ := e
    simp only [bumpEntry]
    by_cases h : k' = k
    · subst h
      simp only [lookupC, if_neg hq]
    · rw [if_neg h]
      simp only [lookupC]
      by_cases h2 : k' = q
      · rw [if_pos h2, if_pos h2]
      · rw [if_neg h2, if_neg h2, ih]

theorem lookupC_foldl (l : List Img) (acc : List ((ℕ × ℕ) × ℕ)) (q : ℕ × ℕ) :
    lookupC (l.foldl (fun m image => bumpEntry m (resKey image)) acc) q
      = lookupC acc q + resCount l q := by
  induction l generalizing acc with
  | nil => simp [resCount]
  | cons im l ih =>
    simp only [List.foldl_cons]
    rw [ih]
    simp only [resCount, List.countP_cons]
    by_cases h : resKey im = q
    · subst h
      rw [lookupC_bump_self]
      simp only [beq_self_eq_true, if_pos]
      omega
    · rw [lookupC_bump_other _ _ _ h]
      have : (resKey im == q) = false := by simpa using h
      rw [this]
      simp

theorem lookupC_build (images : List Img) (q : ℕ × ℕ) :
    lookupC (build_resolution_map images) q = resCount images q := by
  have h := lookupC_foldl images [] q
  simpa [build_resolution_map, lookupC] using h

theorem values_max_spec (l : List ℕ) (M : ℕ) (h : values_max l = some M) :
    M ∈ l ∧ ∀ v ∈ l, v ≤ M := by
  induction l generalizing M with
  | nil => simp [values_max] at h
  | cons v vs ih =>
    simp only [values_max] at h
    cases hv : values_max vs with
    | none =>
      simp only [hv] at h
      cases vs with
      | nil =>
        cases h
        simp
      | cons w ws => simp [values_max] at hv
    | some m =>
      simp only [hv] at h
      cases h
      obtain ⟨hm, hb⟩ := ih m hv
      constructor
      · rcases max_choice v m with hmx | hmx <;> rw [hmx]
        · exact List.mem_cons_self _ _
        · exact List.mem_cons_of_mem _ hm
      · intro x hx
        rcases List.mem_cons.mp hx with rfl | hx
        · exact le_max_left _ _
        · exact (hb x hx).trans (le_max_right _ _)

theorem bump_fst (m : List ((ℕ × ℕ) × ℕ)) (k : ℕ × ℕ) :
    (bumpEntry m k).map Prod.fst =
      if k ∈ m.map Prod.fst then m.map Prod.fst else m.map Prod.fst ++ [k] := by
  induction m with
  | nil => simp [bumpEntry]
  | cons e rest ih =>
    obtain ⟨k', c⟩ := e
    simp only [bumpEntry]
    by_cases h : k' = k
    · subst h
      simp
    · have hne : ¬ k = k' := fun hx => h hx.symm
      simp only [List.map_cons, List.mem_cons]
      rw [if_neg h]
      simp only [List.map_cons, ih]
      by_cases h2 : k ∈ rest.map Prod.fst
      · rw [if_pos h2, if_pos (Or.inr h2)]
      · rw [if_neg h2, if_neg (by
          intro hx
          rcases hx with hx | hx
          · exact hne hx
          · exact h2 hx)]
        simp

theorem build_fst_nodup_aux (l : List Img) (acc : List ((ℕ × ℕ) × ℕ))
    (hacc : (acc.map Prod.fst).Nodup) :
    ((l.foldl (fun m image => bumpEntry m (resKey image)) acc).map Prod.fst).Nodup := by
  induction l generalizing acc with
  | nil => exact hacc
  | cons im l ih =>
    simp only [List.foldl_cons]
    apply ih
    rw [bump_fst]
    split
    · exact hacc
    · rename_i hnm
      simp [List.nodup_append, hacc, hnm]

theorem build_fst_nodup (images : List Img) :
    ((build_resolution_map images).map Prod.fst).Nodup :=
  build_fst_nodup_aux images [] (by simp)

theorem lookupC_of_mem {m : List ((ℕ × ℕ) × ℕ)}
    (hnd : (m.map Prod.fst).Nodup) {e : (ℕ × ℕ) × ℕ} (he : e ∈ m) :
    lookupC m e.1 = e.2 := by
  induction m with
  | nil => simp at he
  | cons f rest ih =>
    obtain ⟨k', c⟩ := f
    simp only [List.map_cons, List.nodup_cons] at hnd
    rcases List.mem_cons.mp he with rfl | hmem
    · simp [lookupC]
    · have hne : k' ≠ e.1 := by
        intro heq
        exact hnd.1 (heq ▸ List.mem_map_of_mem Prod.fst hmem)
      simp only [lookupC, if_neg hne]
      exact ih hnd.2 hmem

theorem lookupC_pos_mem {m : List ((ℕ × ℕ) × ℕ)} {k : ℕ × ℕ}
    (h : lookupC m k ≠ 0) : (k, lookupC m k) ∈ m := by
  induction m with
  | nil => simp [lookupC] at h
  | cons f rest ih =>
    obtain ⟨k', c⟩ := f
    by_cases hk : k' = k
    · subst hk
      simp [lookupC]
    · simp only [lookupC, if_neg hk] at h ⊢
      exact List.mem_cons_of_mem _ (ih h)

theorem find_eq_some_of_exists {α : Type} {p : α → Bool} {l : List α}
    (h : ∃ a ∈ l, p a = true) :
    ∃ e, l.find? p = some e ∧ p e = true ∧ e ∈ l := by
  induction l with
  | nil => simp at h
  | cons a l ih =>
    by_cases hp : p a = true
    · exact ⟨a, List.find?_cons_of_pos _ hp, hp, List.mem_cons_self _ _⟩
    · obtain ⟨b, hb, hpb⟩ := h
      rcases List.mem_cons.mp hb with rfl | hb
      · exact absurd hpb hp
      · obtain ⟨e, he1, he2, he3⟩ := ih ⟨b, hb, hpb⟩
        exact ⟨e, (List.find?_cons_of_neg _ (by simpa using hp)).trans he1, he2,
          List.mem_cons_of_mem _ he3⟩

/-! ## C1: the dominant-resolution filter -/

/-- C1: for every non-empty list of decoded images (dimensions `≥ 1`,
as the data model guarantees for decoded files), `filter_images`
returns `Ok` of the subsequence of the input consisting of exactly the
images whose `(height, width)` key has maximal occurrence count,
preserving input order (`List.filter` keeps order).  The winning key
is existential: ties between equally popular keys are broken by the
map's iteration order, modelled here as first-insertion order. -/
theorem c1_filter_images_dominant (images : List Img)
    (hne : images ≠ [])
    (hdim : ∀ image ∈ images, 1 ≤ image.width ∧ 1 ≤ image.height) :
    ∃ p : ℕ × ℕ, 0 < resCount images p ∧
      (∀ q : ℕ × ℕ, resCount images q ≤ resCount images p) ∧
      filter_images images =
        some (Except.ok (images.filter (fun image =>
          image.height == p.1 && image.width == p.2))) := by
  obtain ⟨img0, rest, rfl⟩ : ∃ a l, images = a :: l := by
    cases images with
    | nil => exact absurd rfl hne
    | cons a l => exact ⟨a, l, rfl⟩
  have hlk : ∀ q, lookupC (build_resolution_map (img0 :: rest)) q =
      resCount (img0 :: rest) q := lookupC_build _
  have hcnt0 : 0 < resCount (img0 :: rest) (resKey img0) :=
    List.countP_pos_iff.mpr ⟨img0, List.mem_cons_self _ _, by simp⟩
  have hmapne : build_resolution_map (img0 :: rest) ≠ [] := by
    intro hmap
    have := hlk (resKey img0)
    rw [hmap] at this
    simp [lookupC] at this
    omega
  obtain ⟨f, m', hfm⟩ : ∃ f m', build_resolution_map (img0 :: rest) = f :: m' := by
    cases hmap : build_resolution_map (img0 :: rest) with
    | nil => exact absurd hmap hmapne
    | cons f m' => exact ⟨f, m', rfl⟩
  obtain ⟨M, hM⟩ : ∃ M, values_max ((build_resolution_map (img0 :: rest)).map Prod.snd) =
      some M := by
    rw [hfm]
    exact ⟨_, rfl⟩
  obtain ⟨hMmem, hMmax⟩ := values_max_spec _ _ hM
  obtain ⟨e0, he0, he0v⟩ := List.mem_map.mp hMmem
  obtain ⟨e, hfind, hpe, heMem⟩ :=
    find_eq_some_of_exists (p := fun entry => entry.2 = M)
      ⟨e0, he0, by simp [he0v]⟩
  have heval : e.2 = M := by simpa using hpe
  have hlke : lookupC (build_resolution_map (img0 :: rest)) e.1 = e.2 :=
    lookupC_of_mem (build_fst_nodup _) heMem
  have hcnt : resCount (img0 :: rest) e.1 = M := by
    rw [← hlk e.1, hlke, heval]
  have hub : ∀ q, resCount (img0 :: rest) q ≤ M := by
    intro q
    by_cases h0 : resCount (img0 :: rest) q = 0
    · omega
    · have hl0 : lookupC (build_resolution_map (img0 :: rest)) q ≠ 0 := by
        rw [hlk]
        exact h0
      have hvm := List.mem_map_of_mem Prod.snd (lookupC_pos_mem hl0)
      have := hMmax _ hvm
      rwa [hlk] at this
  have hMpos : 0 < M := lt_of_lt_of_le hcnt0 (hub _)
  have hpos : 0 < resCount (img0 :: rest) e.1 := by omega
  obtain ⟨im, him, hpim⟩ := List.countP_pos_iff.mp hpos
  have hkey : resKey im = e.1 := by simpa using hpim
  have hne00 : ¬ (e.1 = ((0, 0) : ℕ × ℕ)) := by
    intro h00
    have hd := (hdim im him).2
    have : im.height = 0 := by
      have := congrArg Prod.fst (hkey.trans h00)
      simpa [resKey] using this
    omega
  refine ⟨e.1, hpos, fun q => hcnt ▸ hub q, ?_⟩
  simp only [filter_images, hM, Option.map_some']
  rw [hfind]
  simp only [Option.map_some', Option.getD_some]
  rw [if_neg hne00]

/-- C1 witness. -/
theorem c1_witness :
    ∃ p : ℕ × ℕ, 0 < resCount [Img.mk 1 1 (fun _ _ => transparent)] p ∧
      (∀ q : ℕ × ℕ, resCount [Img.mk 1 1 (fun _ _ => transparent)] q ≤
        resCount [Img.mk 1 1 (fun _ _ => transparent)] p) ∧
      filter_images [Img.mk 1 1 (fun _ _ => transparent)] =
        some (Except.ok ([Img.mk 1 1 (fun _ _ => transparent)].filter
          (fun image => image.height == p.1 && image.width == p.2))) := by
  apply c1_filter_images_dominant
  · exact List.cons_ne_nil _ _
  · intro image him
    rw [List.mem_singleton] at him
    subst him
    exact ⟨le_refl 1, le_refl 1⟩

/-! ## C6: the filter on empty input -/

/-- C6 (amended): on an empty input list `filter_images` panics —
`resolution_map.values().max().unwrap()` unwraps `None` — instead of
returning `FilterError`; the `FilterImages` error value is produced
only by the defensive check, when the winning resolution is the
sentinel `(0, 0)` (shown here for a single `0 × 0` image). -/
theorem c6_filter_images_empty_panics :
    filter_images ([] : List Img) = none ∧
    filter_images [Img.mk 0 0 (fun _ _ => transparent)] =
      some (Except.error SpritesheetErr.FilterImages) := ⟨rfl, rfl⟩

/-- C6 counterexample: on the empty list the result is the panic
`none`, not the error result `FilterError` the claim asserts. -/
theorem c6_counterexample :
    filter_images ([] : List Img) ≠ some (Except.error SpritesheetErr.FilterImages) := by
  intro h
  rw [show filter_images ([] : List Img) = none from rfl] at h
  exact Option.noConfusion h

/-! ## C8: the filter on an already-uniform list -/

theorem build_uniform (p : ℕ × ℕ) (l : List Img)
    (h : ∀ im ∈ l, resKey im = p) (c : ℕ) :
    l.foldl (fun m image => bumpEntry m (resKey image)) [(p, c)]
      = [(p, c + l.length)] := by
  induction l generalizing c with
  | nil => simp
  | cons im l ih =>
    simp only [List.foldl_cons]
    rw [h im (List.mem_cons_self _ _), show bumpEntry [(p, c)] p = [(p, c + 1)] by
      simp [bumpEntry]]
    rw [ih (fun x hx => h x (List.mem_cons_of_mem _ hx)) (c + 1)]
    have heq : c + 1 + l.length = c + (im :: l).length := by
      simp
      omega
    rw [heq]

/-- C8: if all images of a (non-empty) list already share one
`(height, width)` key — of positive dimensions, per the data model —
`filter_images` returns the input unchanged, in the same order. -/
theorem c8_filter_images_uniform (images : List Img) (p : ℕ × ℕ)
    (hne : images ≠ []) (hdim : 1 ≤ p.1 ∧ 1 ≤ p.2)
    (hshare : ∀ image ∈ images, resKey image = p) :
    filter_images images = some (Except.ok images) := by
  obtain ⟨img0, rest, rfl⟩ : ∃ a l, images = a :: l := by
    cases images with
    | nil => exact absurd rfl hne
    | cons a l => exact ⟨a, l, rfl⟩
  have hb : build_resolution_map (img0 :: rest) = [(p, 1 + rest.length)] := by
    simp only [build_resolution_map, List.foldl_cons]
    rw [hshare img0 (List.mem_cons_self _ _),
      show bumpEntry [] p = [(p, 1)] from rfl]
    exact build_uniform p rest (fun x hx => hshare x (List.mem_cons_of_mem _ hx)) 1
  have hp0 : ¬ (p = ((0, 0) : ℕ × ℕ)) := by
    intro h0
    rw [h0] at hdim
    exact absurd hdim.1 (by norm_num)
  have hfil : (img0 :: rest).filter
      (fun image => image.height == p.1 && image.width == p.2) = img0 :: rest := by
    apply List.filter_eq_self.mpr
    intro a ha
    have hk := hshare a ha
    have h1 : a.height = p.1 := by rw [← hk]; rfl
    have h2 : a.width = p.2 := by rw [← hk]; rfl
    simp [h1, h2]
  simp only [filter_images, hb]
  rw [show values_max ([(p, 1 + rest.length)].map Prod.snd) = some (1 + rest.length)
    from rfl]
  simp only [Option.map_some']
  rw [show [(p, 1 + rest.length)].find? (fun entry => entry.2 = 1 + rest.length)
      = some (p, 1 + rest.length) from by simp]
  simp only [Option.map_some', Option.getD_some]
  rw [if_neg hp0, hfil]

/-- C8 witness. -/
theorem c8_witness :
    filter_images [Img.mk 5 7 (fun _ _ => transparent)] =
      some (Except.ok [Img.mk 5 7 (fun _ _ => transparent)]) := by
  apply c8_filter_images_uniform _ (7, 5)
  · exact List.cons_ne_nil _ _
  · exact ⟨by norm_num, by norm_num⟩
  · intro image him
    rw [List.mem_singleton] at him
    subst him
    rfl

/-! ## The grid composer: arithmetic helpers -/

/-- Unfolding equation of `create_spritesheet` on a non-empty list
(pure definitional unfolding, stated once so later proofs can rewrite
with it instead of relying on unification to unfold). -/
theorem create_spritesheet_cons (rc : ℕ) (img0 : Img) (rest : List Img) :
    create_spritesheet rc (img0 :: rest) =
      compose_rows (img0 :: rest) img0.width img0.height rc
        (List.range (f32CeilDivU32 (img0 :: rest).length rc)) 0
        (Img.mk ((rc * img0.width) % U32)
          ((f32CeilDivU32 (img0 :: rest).length rc * img0.height) % U32)
          (fun _ _ => transparent)) := rfl

theorem le_mul_ceil (a b : ℕ) (hb : 0 < b) : a ≤ b * ((a + b - 1) / b) := by
  rcases Nat.eq_zero_or_pos a with rfl | ha
  · simp
  · obtain ⟨l, rfl⟩ : ∃ l, a = l + 1 := ⟨a - 1, by omega⟩
    have h1 : l + 1 + b - 1 = l + b := by omega
    rw [h1, Nat.add_div_right _ hb, Nat.mul_add, Nat.mul_one]
    have h2 := Nat.div_add_mod l b
    have h3 : l % b < b := Nat.mod_lt _ hb
    omega

/-- Coordinates inside the `x0`-th cell determine cell index and cell
offset: `p / w = x0` and `p % w = p - x0 * w`. -/
theorem div_mod_rect {p x0 w : ℕ} (hw : 0 < w)
    (h1 : x0 * w ≤ p) (h2 : p < x0 * w + w) :
    p / w = x0 ∧ p % w = p - x0 * w := by
  obtain ⟨dx, rfl⟩ : ∃ dx, p = x0 * w + dx := ⟨p - x0 * w, by omega⟩
  have hdx : dx < w := by omega
  constructor
  · rw [Nat.mul_comm x0 w, Nat.mul_add_div hw, Nat.div_eq_of_lt hdx]
    omega
  · rw [Nat.mul_comm x0 w, Nat.mul_add_mod, Nat.mod_eq_of_lt hdx]
    omega

/-- Row-major cell decomposition is unique. -/
theorem cell_decomp {a b y x0 rc : ℕ} (hb : b < rc) (hx : x0 < rc)
    (he : a * rc + b = y * rc + x0) : a = y ∧ b = x0 := by
  have hrc : 0 < rc := by omega
  have h1 : (a * rc + b) / rc = a := by
    rw [Nat.mul_comm a rc, Nat.mul_add_div hrc, Nat.div_eq_of_lt hb]
    omega
  have h2 : (y * rc + x0) / rc = y := by
    rw [Nat.mul_comm y rc, Nat.mul_add_div hrc, Nat.div_eq_of_lt hx]
    omega
  have hay : a = y := by rw [← h1, he, h2]
  subst hay
  exact ⟨rfl, by omega⟩

/-- Copying image `idx` (sitting at cell `(x0, y)`, `idx = y*rc + x0`)
onto a canvas that holds the first `idx` images advances the canvas to
one that holds the first `idx + 1` images. -/
theorem placed_pix_step (images : List Img) (rc w h : ℕ)
    (hw : 0 < w) (hh : 0 < h)
    (y x0 idx : ℕ) (hidx : idx = y * rc + x0) (hx0 : x0 < rc)
    (im : Img) (hget : images.get? idx = some im)
    (himw : im.width = w) (himh : im.height = h)
    (sheet : Img)
    (hpix : ∀ p q, sheet.pix p q = partialPix images rc w h idx p q)
    (p q : ℕ) :
    (if x0 * w ≤ p ∧ p < x0 * w + im.width ∧ y * h ≤ q ∧ q < y * h + im.height
      then im.pix (p - x0 * w) (q - y * h) else sheet.pix p q)
      = partialPix images rc w h (idx + 1) p q := by
  rw [himw, himh]
  by_cases hin : x0 * w ≤ p ∧ p < x0 * w + w ∧ y * h ≤ q ∧ q < y * h + h
  · rw [if_pos hin]
    obtain ⟨hp1, hp2, hq1, hq2⟩ := hin
    obtain ⟨hpd, hpm⟩ := div_mod_rect hw hp1 hp2
    obtain ⟨hqd, hqm⟩ := div_mod_rect hh hq1 hq2
    simp only [partialPix]
    rw [if_pos ⟨by omega, by rw [hpd, hqd, ← hidx]; omega⟩]
    rw [hpd, hqd, ← hidx, hget, Option.getD_some, hpm, hqm]
  · rw [if_neg hin, hpix p q]
    simp only [partialPix]
    by_cases hlt : p / w < rc
    · by_cases hcell : (q / h) * rc + p / w < idx
      · rw [if_pos ⟨hlt, hcell⟩, if_pos ⟨hlt, by omega⟩]
      · by_cases hceq : (q / h) * rc + p / w = idx
        · exfalso
          rw [hidx] at hceq
          obtain ⟨hqy, hpx⟩ := cell_decomp hlt hx0 hceq
          apply hin
          have hpdm := Nat.div_add_mod p w
          have hpml : p % w < w := Nat.mod_lt _ hw
          have hqdm := Nat.div_add_mod q h
          have hqml : q % h < h := Nat.mod_lt _ hh
          have hxw : x0 * w = w * (p / w) := by rw [hpx, Nat.mul_comm]
          have hyh : y * h = h * (q / h) := by rw [hqy, Nat.mul_comm]
          refine ⟨by omega, by omega, by omega, by omega⟩
        · rw [if_neg (by rintro ⟨-, hc⟩; omega),
              if_neg (by rintro ⟨-, hc⟩; omega)]
    · rw [if_neg (by rintro ⟨hc, -⟩; exact hlt hc),
          if_neg (by rintro ⟨hc, -⟩; exact hlt hc)]

/-- When the image list is exhausted the inner loop `break`s at once,
leaving canvas and index unchanged. -/
theorem compose_row_exhaust (images : List Img) (w h y : ℕ)
    (xs : List ℕ) (idx : ℕ) (sheet : Img)
    (h1 : 1 ≤ images.length) (hid : images.length ≤ idx) :
    compose_row images w h y xs idx sheet = some (sheet, idx) := by
  cases xs with
  | nil => rfl
  | cons x xs =>
    simp only [compose_row]
    rw [if_pos (by omega)]

/-- Behaviour of the inner placement loop over columns
`x0, x0 + 1, …, x0 + k - 1` of row `y`: every copy succeeds, the index
advances to `min (idx + k) len`, the canvas dimensions are unchanged
and its pixels now reflect all placed images. -/
theorem compose_row_spec (images : List Img) (w h rc H : ℕ)
    (hw : 0 < w) (hh : 0 < h)
    (hdims : ∀ im ∈ images, im.width = w ∧ im.height = h)
    (hW : rc * w < U32) (hH : H * h < U32) (hlen1 : 1 ≤ images.length)
    (y : ℕ) (hy : y < H) :
    ∀ (k x0 idx : ℕ) (sheet : Img),
      x0 + k ≤ rc → idx = y * rc + x0 → idx ≤ images.length →
      sheet.width = rc * w → sheet.height = H * h →
      (∀ p q, sheet.pix p q = partialPix images rc w h idx p q) →
      ∃ sheet', compose_row images w h y (List.range' x0 k) idx sheet =
          some (sheet', min (idx + k) images.length) ∧
        sheet'.width = rc * w ∧ sheet'.height = H * h ∧
        (∀ p q, sheet'.pix p q = partialPix images rc w h
          (min (idx + k) images.length) p q) := by
  intro k
  induction k with
  | zero =>
    intro x0 idx sheet hxk hidx hle hsw hsh hpix
    have hmin : min (idx + 0) images.length = idx := by omega
    rw [hmin]
    exact ⟨sheet, rfl, hsw, hsh, hpix⟩
  | succ k ih =>
    intro x0 idx sheet hxk hidx hle hsw hsh hpix
    rw [show List.range' x0 (k + 1) = x0 :: List.range' (x0 + 1) k from rfl]
    simp only [compose_row]
    by_cases hbreak : images.length - 1 < idx
    · have hidxlen : idx = images.length := by omega
      rw [if_pos hbreak]
      have hmin : min (idx + (k + 1)) images.length = idx := by omega
      rw [hmin]
      exact ⟨sheet, rfl, hsw, hsh, hpix⟩
    · rw [if_neg hbreak]
      have hidxlt : idx < images.length := by omega
      obtain ⟨im, hget⟩ : ∃ im, images.get? idx = some im :=
        ⟨images.get ⟨idx, hidxlt⟩, List.get?_eq_get hidxlt⟩
      rw [hget]
      simp only [Option.some_bind]
      obtain ⟨himw, himh⟩ := hdims im (List.get?_mem hget)
      have hx0 : x0 < rc := by omega
      have hxw : x0 * w < U32 :=
        lt_of_le_of_lt (Nat.mul_le_mul_right w hx0.le) hW
      have hyh : y * h < U32 :=
        lt_of_le_of_lt (Nat.mul_le_mul_right h hy.le) hH
      rw [Nat.mod_eq_of_lt hxw, Nat.mod_eq_of_lt hyh]
      have hfits : ¬ (sheet.width < im.width + x0 * w ∨
          sheet.height < im.height + y * h) := by
        rw [hsw, hsh, himw, himh]
        have hxe : (x0 + 1) * w = x0 * w + w := by ring
        have hxle : (x0 + 1) * w ≤ rc * w := Nat.mul_le_mul_right w (by omega)
        have hye : (y + 1) * h = y * h + h := by ring
        have hyle : (y + 1) * h ≤ H * h := Nat.mul_le_mul_right h (by omega)
        rintro (hc | hc) <;> omega
      simp only [copy_from]
      rw [if_neg hfits]
      simp only [Option.some_bind]
      have hstep := placed_pix_step images rc w h hw hh y x0 idx hidx hx0 im
        hget himw himh sheet hpix
      have := ih (x0 + 1) (idx + 1)
        (Img.mk sheet.width sheet.height (fun i j =>
          if x0 * w ≤ i ∧ i < x0 * w + im.width ∧
              y * h ≤ j ∧ j < y * h + im.height then
            im.pix (i - (x0 * w)) (j - (y * h))
          else sheet.pix i j))
        (by omega) (by omega) (by omega) hsw hsh hstep
      obtain ⟨sheet', h1, h2, h3, h4⟩ := this
      have hmm : (idx + 1) + k = idx + (k + 1) := by omega
      rw [hmm] at h1 h4
      exact ⟨sheet', h1, h2, h3, h4⟩

/-- Behaviour of the outer placement loop over rows
`y0, …, y0 + m - 1`: after it, the canvas holds the first
`min ((y0 + m) * rc) len` images. -/
theorem compose_rows_spec (images : List Img) (w h rc H : ℕ)
    (hrc : 0 < rc) (hw : 0 < w) (hh : 0 < h)
    (hdims : ∀ im ∈ images, im.width = w ∧ im.height = h)
    (hW : rc * w < U32) (hH : H * h < U32) (hlen1 : 1 ≤ images.length) :
    ∀ (m y0 idx : ℕ) (sheet : Img),
      y0 + m ≤ H → idx = min (y0 * rc) images.length →
      sheet.width = rc * w → sheet.height = H * h →
      (∀ p q, sheet.pix p q = partialPix images rc w h idx p q) →
      ∃ sheet', compose_rows images w h rc (List.range' y0 m) idx sheet =
          some sheet' ∧
        sheet'.width = rc * w ∧ sheet'.height = H * h ∧
        (∀ p q, sheet'.pix p q = partialPix images rc w h
          (min ((y0 + m) * rc) images.length) p q) := by
  intro m
  induction m with
  | zero =>
    intro y0 idx sheet hym hidx hsw hsh hpix
    have hmin : min ((y0 + 0) * rc) images.length = idx := by
      rw [show y0 + 0 = y0 from rfl, hidx]
    rw [hmin]
    exact ⟨sheet, rfl, hsw, hsh, hpix⟩
  | succ m ih =>
    intro y0 idx sheet hym hidx hsw hsh hpix
    rw [show List.range' y0 (m + 1) = y0 :: List.range' (y0 + 1) m from rfl]
    simp only [compose_rows]
    by_cases hylen : y0 * rc ≤ images.length
    · have hidx' : idx = y0 * rc := by omega
      have hrow := compose_row_spec images w h rc H hw hh hdims hW hH hlen1
        y0 (by omega) rc 0 idx sheet (by omega) (by omega) (by omega) hsw hsh hpix
      obtain ⟨sheet1, hrow1, hsw1, hsh1, hpix1⟩ := hrow
      rw [List.range_eq_range', hrow1]
      simp only [Option.some_bind]
      have hsucc : (y0 + 1) * rc = y0 * rc + rc := by ring
      have := ih (y0 + 1) (min (idx + rc) images.length) sheet1
        (by omega) (by omega) hsw1 hsh1 hpix1
      obtain ⟨sheet', h1, h2, h3, h4⟩ := this
      have hm1 : y0 + 1 + m = y0 + (m + 1) := by omega
      rw [hm1] at h4
      exact ⟨sheet', h1, h2, h3, h4⟩
    · have hidx' : idx = images.length := by omega
      rw [compose_row_exhaust images w h y0 (List.range rc) idx sheet hlen1
        (by omega)]
      simp only [Option.some_bind]
      have hy0le : y0 * rc ≤ (y0 + 1) * rc := Nat.mul_le_mul_right rc (by omega)
      have := ih (y0 + 1) idx sheet (by omega) (by omega) hsw hsh hpix
      obtain ⟨sheet', h1, h2, h3, h4⟩ := this
      have hm1 : y0 + 1 + m = y0 + (m + 1) := by omega
      rw [hm1] at h4
      exact ⟨sheet', h1, h2, h3, h4⟩

/-- Full characterisation of a successful `create_spritesheet` run:
positive row count, non-empty same-dimension input, no `u32` overflow
in the canvas dimensions, and the f32 row computation agreeing with
the exact ceiling (automatic for all realistic sizes).  The resulting
canvas has the allocated dimensions and holds every input image in its
row-major cell, transparent elsewhere. -/
theorem create_spritesheet_spec (rc : ℕ) (images : List Img) (w h : ℕ)
    (hrc : 0 < rc) (hne : images ≠ []) (hw : 0 < w) (hh : 0 < h)
    (hdims : ∀ image ∈ images, image.width = w ∧ image.height = h)
    (hW : rc * w < U32)
    (hH : f32CeilDivU32 images.length rc * h < U32)
    (hceil : f32CeilDivU32 images.length rc = (images.length + rc - 1) / rc) :
    ∃ sheet, create_spritesheet rc images = some sheet ∧
      sheet.width = rc * w ∧
      sheet.height = f32CeilDivU32 images.length rc * h ∧
      (∀ p q, sheet.pix p q = partialPix images rc w h images.length p q) := by
  obtain ⟨img0, rest, rfl⟩ : ∃ a l, images = a :: l := by
    cases images with
    | nil => exact absurd rfl hne
    | cons a l => exact ⟨a, l, rfl⟩
  have hlen1 : 1 ≤ (img0 :: rest).length := by simp
  have hlenH : (img0 :: rest).length ≤
      rc * f32CeilDivU32 (img0 :: rest).length rc := by
    rw [hceil]
    exact le_mul_ceil _ _ hrc
  obtain ⟨h0w, h0h⟩ := hdims img0 (List.mem_cons_self _ _)
  have hrows := compose_rows_spec (img0 :: rest) w h rc
    (f32CeilDivU32 (img0 :: rest).length rc) hrc hw hh hdims hW hH hlen1
    (f32CeilDivU32 (img0 :: rest).length rc) 0 0
    (Img.mk ((rc * w) % U32) ((f32CeilDivU32 (img0 :: rest).length rc * h) % U32)
      (fun _ _ => transparent))
    (by omega) (by omega)
    (by show (rc * w) % U32 = rc * w; exact Nat.mod_eq_of_lt hW)
    (by show (f32CeilDivU32 (img0 :: rest).length rc * h) % U32 = _
        exact Nat.mod_eq_of_lt hH)
    (by
      intro p q
      show transparent = partialPix (img0 :: rest) rc w h 0 p q
      simp [partialPix])
  obtain ⟨sheet', hcomp, hsw', hsh', hpix'⟩ := hrows
  refine ⟨sheet', ?_, hsw', hsh', ?_⟩
  · rw [create_spritesheet_cons, h0w, h0h, List.range_eq_range']
    exact hcomp
  · intro p q
    rw [hpix' p q]
    have hmin : min ((0 + f32CeilDivU32 (img0 :: rest).length rc) * rc)
        (img0 :: rest).length = (img0 :: rest).length := by
      have hcm : (0 + f32CeilDivU32 (img0 :: rest).length rc) * rc =
          rc * f32CeilDivU32 (img0 :: rest).length rc := by ring
      omega
    rw [hmin]

/-! ## C2: placement and transparency -/

/-- C2 (amended): under the stated preconditions — positive row count,
non-empty list of images all of dimensions `w × h` (`≥ 1`), and the
size bounds the counterexample forces: image count and row count below
the f32 precision threshold `2²⁴`, and no `u32` overflow in the canvas
dimensions (`rc * w < 2³²` and `⌈len / rc⌉ * h < 2³²`) —
`create_spritesheet` places the image of input index `i` at pixel
offset `((i mod rc) * w, (i div rc) * h)` and leaves every canvas
pixel not covered by a placed image transparent.  Without the
no-overflow condition the claim fails: see the counterexample, where
the canvas width wraps and the first copy panics. -/
theorem c2_create_spritesheet_placement (rc : ℕ) (images : List Img) (w h : ℕ)
    (hrc : 0 < rc) (hne : images ≠ []) (hw : 0 < w) (hh : 0 < h)
    (hdims : ∀ image ∈ images, image.width = w ∧ image.height = h)
    (hlen : images.length < 2 ^ 24) (hrc24 : rc < 2 ^ 24)
    (hW : rc * w < U32)
    (hH : ((images.length + rc - 1) / rc) * h < U32) :
    ∃ sheet, create_spritesheet rc images = some sheet ∧
      (∀ i (hi : i < images.length) (dx dy : ℕ), dx < w → dy < h →
        sheet.pix ((i % rc) * w + dx) ((i / rc) * h + dy) =
          (images.get ⟨i, hi⟩).pix dx dy) ∧
      (∀ p q, p < rc * w → q < ((images.length + rc - 1) / rc) * h →
        (∀ i, i < images.length →
          ¬ ((i % rc) * w ≤ p ∧ p < (i % rc) * w + w ∧
             (i / rc) * h ≤ q ∧ q < (i / rc) * h + h)) →
        sheet.pix p q = transparent) := by
  have hlen1 : 1 ≤ images.length := by
    cases images with
    | nil => exact absurd rfl hne
    | cons a l => simp
  have hceil : f32CeilDivU32 images.length rc = (images.length + rc - 1) / rc :=
    f32CeilDivU32_exact images.length rc hlen1 hlen hrc hrc24
  have hH' : f32CeilDivU32 images.length rc * h < U32 := by
    rw [hceil]
    exact hH
  obtain ⟨sheet, hcr, hsw, hsh, hpix⟩ :=
    create_spritesheet_spec rc images w h hrc hne hw hh hdims hW hH' hceil
  refine ⟨sheet, hcr, ?_, ?_⟩
  · intro i hi dx dy hdx hdy
    rw [hpix]
    have hxr : i % rc < rc := Nat.mod_lt _ hrc
    obtain ⟨hpd, hpm⟩ := div_mod_rect hw
      (Nat.le_add_right _ dx) (by omega : (i % rc) * w + dx < (i % rc) * w + w)
    obtain ⟨hqd, hqm⟩ := div_mod_rect hh
      (Nat.le_add_right _ dy) (by omega : (i / rc) * h + dy < (i / rc) * h + h)
    have hpm' : ((i % rc) * w + dx) % w = dx := by omega
    have hqm' : ((i / rc) * h + dy) % h = dy := by omega
    have hii : (i / rc) * rc + i % rc = i := by
      have h1 := Nat.div_add_mod i rc
      have h2 : (i / rc) * rc = rc * (i / rc) := Nat.mul_comm _ _
      omega
    simp only [partialPix]
    rw [hpd, hqd, hii, hpm', hqm']
    rw [if_pos ⟨hxr, hi⟩, List.get?_eq_get hi, Option.getD_some]
  · intro p q hp hq hnc
    rw [hpix]
    simp only [partialPix]
    by_cases hcond : p / w < rc ∧ (q / h) * rc + p / w < images.length
    · exfalso
      obtain ⟨hlt, hcell⟩ := hcond
      apply hnc ((q / h) * rc + p / w) hcell
      have hmodr : ((q / h) * rc + p / w) % rc = p / w := by
        rw [Nat.mul_comm, Nat.mul_add_mod, Nat.mod_eq_of_lt hlt]
      have hdivr : ((q / h) * rc + p / w) / rc = q / h := by
        rw [Nat.mul_comm, Nat.mul_add_div hrc, Nat.div_eq_of_lt hlt]
        omega
      rw [hmodr, hdivr]
      have hpdm := Nat.div_add_mod p w
      have hpml : p % w < w := Nat.mod_lt _ hw
      have hqdm := Nat.div_add_mod q h
      have hqml : q % h < h := Nat.mod_lt _ hh
      have hcw : (p / w) * w = w * (p / w) := Nat.mul_comm _ _
      have hch : (q / h) * h = h * (q / h) := Nat.mul_comm _ _
      refine ⟨by omega, by omega, by omega, by omega⟩
    · rw [if_neg hcond]

/-- C2 witness: one 1×1 image at row count 1. -/
theorem c2_witness :
    ∃ sheet, create_spritesheet 1 [Img.mk 1 1 (fun _ _ => (9, 9, 9, 9))] =
        some sheet ∧
      (∀ i (hi : i < 1) (dx dy : ℕ), dx < 1 → dy < 1 →
        sheet.pix ((i % 1) * 1 + dx) ((i / 1) * 1 + dy) =
          ([Img.mk 1 1 (fun _ _ => (9, 9, 9, 9))].get ⟨i, hi⟩).pix dx dy) ∧
      (∀ p q, p < 1 * 1 → q < 1 * 1 →
        (∀ i, i < 1 →
          ¬ ((i % 1) * 1 ≤ p ∧ p < (i % 1) * 1 + 1 ∧
             (i / 1) * 1 ≤ q ∧ q < (i / 1) * 1 + 1)) →
        sheet.pix p q = transparent) := by
  exact c2_create_spritesheet_placement 1 [Img.mk 1 1 (fun _ _ => (9, 9, 9, 9))]
    1 1 (by decide) (List.cons_ne_nil _ _) (by decide) (by decide)
    (by
      intro image him
      rw [List.mem_singleton] at him
      subst him
      exact ⟨rfl, rfl⟩)
    (by decide) (by decide) (by decide) (by decide)

/-- C2 counterexample: a positive row count (2) and a non-empty list
of same-resolution images (one `2³¹ × 1` image, a legal `u32`-sized
`DynamicImage`), yet nothing is placed: the canvas width
`2 * 2³¹ mod 2³² = 0` wraps to zero and the first `copy_from(..)
.unwrap()` panics, so no canvas is produced at all. -/
theorem c2_counterexample :
    ¬ ∃ sheet, create_spritesheet 2 [Img.mk (2 ^ 31) 1 (fun _ _ => transparent)] =
        some sheet := by
  rintro ⟨sheet, hs⟩
  rw [show create_spritesheet 2 [Img.mk (2 ^ 31) 1 (fun _ _ => transparent)] =
    none from rfl] at hs
  exact Option.noConfusion hs

/-! ## C3: canvas dimensions -/

/-- C3 (amended): under the same preconditions as C2 — image count and
row count below the f32 precision threshold `2²⁴`, and no `u32`
overflow in `rowCount * cellWidth` and `requiredRows * cellHeight` —
the canvas has width `rowCount * cellWidth` and height
`⌈imageCount / rowCount⌉ * cellHeight`, where
`(cellWidth, cellHeight)` are the dimensions of the first image.
Without the no-overflow condition the claim fails: the u32 products
wrap (see the counterexample). -/
theorem c3_canvas_dimensions (rc : ℕ) (images : List Img) (w h : ℕ)
    (hrc : 0 < rc) (hne : images ≠ []) (hw : 0 < w) (hh : 0 < h)
    (hdims : ∀ image ∈ images, image.width = w ∧ image.height = h)
    (hlen : images.length < 2 ^ 24) (hrc24 : rc < 2 ^ 24)
    (hW : rc * w < U32)
    (hH : ((images.length + rc - 1) / rc) * h < U32) :
    ∃ sheet, create_spritesheet rc images = some sheet ∧
      sheet.width = rc * w ∧
      sheet.height = ((images.length + rc - 1) / rc) * h := by
  have hlen1 : 1 ≤ images.length := by
    cases images with
    | nil => exact absurd rfl hne
    | cons a l => simp
  have hceil : f32CeilDivU32 images.length rc = (images.length + rc - 1) / rc :=
    f32CeilDivU32_exact images.length rc hlen1 hlen hrc hrc24
  have hH' : f32CeilDivU32 images.length rc * h < U32 := by
    rw [hceil]
    exact hH
  obtain ⟨sheet, hcr, hsw, hsh, _⟩ :=
    create_spritesheet_spec rc images w h hrc hne hw hh hdims hW hH' hceil
  rw [hceil] at hsh
  exact ⟨sheet, hcr, hsw, hsh⟩

/-- C3 witness: 7 images of 10×10 at row count 3 give a 30×30 canvas
(`⌈7/3⌉ = 3` rows), as §8 of the spec computes. -/
theorem c3_witness :
    ∃ sheet, create_spritesheet 3
        (List.replicate 7 (Img.mk 10 10 (fun _ _ => (1, 2, 3, 4)))) =
        some sheet ∧
      sheet.width = 3 * 10 ∧
      sheet.height = (((List.replicate 7 (Img.mk 10 10 (fun _ _ => (1, 2, 3, 4)))).length
        + 3 - 1) / 3) * 10 := by
  exact c3_canvas_dimensions 3 _ 10 10 (by decide)
    (by simp) (by decide) (by decide)
    (by
      intro image him
      rw [List.eq_of_mem_replicate him]
      exact ⟨rfl, rfl⟩)
    (by decide) (by decide) (by decide) (by decide)

/-- C3 counterexample: at row count 3 with one `2³¹ × 1` image the
multiplication `3 * 2³¹` wraps modulo `2³²`: the run succeeds but the
canvas is `2³¹` wide, not `3 * 2³¹`. -/
theorem c3_counterexample :
    ¬ ∃ sheet, create_spritesheet 3 [Img.mk (2 ^ 31) 1 (fun _ _ => transparent)] =
        some sheet ∧ sheet.width = 3 * 2 ^ 31 := by
  rintro ⟨sheet, hs, hw⟩
  have hmap : (create_spritesheet 3 [Img.mk (2 ^ 31) 1 (fun _ _ => transparent)]).map
      Img.width = some (2 ^ 31) := rfl
  rw [hs, Option.map_some'] at hmap
  have : sheet.width = 2 ^ 31 := Option.some_injective _ hmap
  omega

/-! ## C5: no CompositionError exists -/

/-- With row count `0` the inner loop body never runs (`0..0` is
empty), so every row leaves the state untouched. -/
theorem compose_rows_rc_zero (images : List Img) (w h : ℕ)
    (ys : List ℕ) (idx : ℕ) (sheet : Img) :
    compose_rows images w h 0 ys idx sheet = some sheet := by
  induction ys generalizing idx sheet with
  | nil => rfl
  | cons y ys ih =>
    simp only [compose_rows]
    rw [show List.range 0 = ([] : List ℕ) from rfl]
    simp only [compose_row, Option.some_bind]
    exact ih idx sheet

/-- C5 (amended): `create_spritesheet` has no error result at all (the
source returns a bare `DynamicImage`; no `CompositionError` exists).
With `rowCount = 0` and a non-empty list it *succeeds*, returning a
degenerate zero-width canvas with no images placed (the f32 division
by zero gives `+∞`, whose `u32` cast saturates, and the inner loop
over `0..0` never runs); with an empty image list it *panics* on the
out-of-bounds `images[0]` rather than returning an error. -/
theorem c5_no_composition_error :
    (∀ images : List Img, images ≠ [] →
      ∃ sheet, create_spritesheet 0 images = some sheet ∧
        sheet.width = 0 ∧ (∀ p q, sheet.pix p q = transparent)) ∧
    (∀ rc : ℕ, create_spritesheet rc ([] : List Img) = none) := by
  constructor
  · intro images hne
    obtain ⟨img0, rest, rfl⟩ : ∃ a l, images = a :: l := by
      cases images with
      | nil => exact absurd rfl hne
      | cons a l => exact ⟨a, l, rfl⟩
    rw [create_spritesheet_cons]
    refine ⟨_, compose_rows_rc_zero _ _ _ _ _ _, ?_, fun p q => rfl⟩
    simp
  · intro rc
    rfl

/-- C5 witness. -/
theorem c5_witness :
    ∃ sheet, create_spritesheet 0 [Img.mk 1 1 (fun _ _ => transparent)] =
        some sheet ∧
      sheet.width = 0 ∧ (∀ p q, sheet.pix p q = transparent) :=
  c5_no_composition_error.1 [Img.mk 1 1 (fun _ _ => transparent)]
    (List.cons_ne_nil _ _)

/-- C5 counterexample: with `rowCount = 0` and a (non-empty) image
list the composer does *not* fail — it returns a degenerate canvas —
refuting «fails with a CompositionError when rowCount is 0». -/
theorem c5_counterexample :
    ∃ sheet, create_spritesheet 0 [Img.mk 1 1 (fun _ _ => transparent)] =
      some sheet := by
  rw [create_spritesheet_cons]
  exact ⟨_, compose_rows_rc_zero _ _ _ _ _ _⟩

end Packer
